import Mathlib

/-!
Shallow embedding of the Tetris engine in `src/tetris.py`: shape catalog,
`Piece`, board helpers (`is_valid`, `lock_piece`, `clear_lines`), the `Game`
state machine (`move`, `rotate`, `soft_drop`, `hard_drop`, `tick`,
`_lock_and_clear`, `spawn_next`, `restart`), the 7-bag randomizer, and the
driver's per-keydown dispatch from `main`.  Python ints are modelled as `Int`
(`//` as `Int.fdiv`, `%` as `Int.emod`), the board as a list of rows of
`Option Name`, and the global `random.shuffle` source as an explicit stream
`Nat → List Name` of bag contents together with a cursor stored in the state.
The unbounded `while` loops (`clear_lines`, `hard_drop`) are embedded with a
fuel parameter large enough for the source's fixed 20×10 board; the theorems
below prove the fuel is never exhausted in the stated situations.
-/

namespace Tetris

/-- The seven tetromino kinds (Python uses the strings "I".."L"). -/
inductive Name where
  | I | O | T | S | Z | J | L
deriving DecidableEq, Fintype

def COLS : Nat := 10
def ROWS : Nat := 20

/-- `PIECE_NAMES = list(SHAPES.keys())`. -/
def PIECE_NAMES : List Name := [.I, .O, .T, .S, .Z, .J, .L]

/-- `SHAPES`: for each kind the list of rotations, each a list of
`(row, col)` offsets, exactly as in the source table. -/
def SHAPES : Name → List (List (Int × Int))
  | .I => [[(0, 0), (0, 1), (0, 2), (0, 3)],
           [(0, 0), (1, 0), (2, 0), (3, 0)]]
  | .O => [[(0, 0), (0, 1), (1, 0), (1, 1)]]
  | .T => [[(0, 0), (0, 1), (0, 2), (1, 1)],
           [(0, 0), (1, 0), (2, 0), (1, 1)],
           [(1, 0), (1, 1), (1, 2), (0, 1)],
           [(0, 0), (1, 0), (2, 0), (1, -1)]]
  | .S => [[(0, 1), (0, 2), (1, 0), (1, 1)],
           [(0, 0), (1, 0), (1, 1), (2, 1)]]
  | .Z => [[(0, 0), (0, 1), (1, 1), (1, 2)],
           [(0, 1), (1, 0), (1, 1), (2, 0)]]
  | .J => [[(0, 0), (1, 0), (1, 1), (1, 2)],
           [(0, 0), (0, 1), (1, 0), (2, 0)],
           [(0, 0), (0, 1), (0, 2), (1, 2)],
           [(0, 0), (1, 0), (2, 0), (2, -1)]]
  | .L => [[(0, 2), (1, 0), (1, 1), (1, 2)],
           [(0, 0), (1, 0), (2, 0), (2, 1)],
           [(0, 0), (0, 1), (0, 2), (1, 0)],
           [(0, 0), (0, 1), (1, 1), (2, 1)]]

/-- `LINE_SCORES = {0: 0, 1: 100, 2: 300, 3: 500, 4: 800}` looked up with
`.get(cleared, 0)`, i.e. defaulting to 0. -/
def LINE_SCORES : Nat → Int
  | 0 => 0
  | 1 => 100
  | 2 => 300
  | 3 => 500
  | 4 => 800
  | _ => 0

/-- `Piece.__init__`: name, rotation index, anchor row/col.  (`rotations` and
`color` are derived from `name` and carried implicitly.) -/
structure Piece where
  name : Name
  rot_index : Int
  row : Int
  col : Int
deriving DecidableEq

/-- `Piece(name)`: rotation 0, row 0, col `COLS // 2 - 1`. -/
def mkPiece (name : Name) : Piece :=
  { name := name, rot_index := 0, row := 0, col := ((COLS / 2 : Nat) : Int) - 1 }

/-- `Piece.cells`: absolute `(row, col)` positions of each block. -/
def pieceCells (p : Piece) : List (Int × Int) :=
  ((SHAPES p.name).getD p.rot_index.toNat []).map
    (fun o => (p.row + o.1, p.col + o.2))

/-- `Piece.rotated_cells(direction)`: cells after rotation, without mutation.
Python `%` on a positive modulus is `Int.emod`. -/
def rotatedCells (p : Piece) (direction : Int) : List (Int × Int) :=
  ((SHAPES p.name).getD ((p.rot_index + direction).emod ((SHAPES p.name).length : Int)).toNat []).map
    (fun o => (p.row + o.1, p.col + o.2))

/-- `Piece.rotate(direction)`: advance the rotation index modulo the kind's
rotation count. -/
def pieceRotate (p : Piece) (direction : Int) : Piece :=
  { p with rot_index := (p.rot_index + direction).emod ((SHAPES p.name).length : Int) }

/-- Board: list of `ROWS` rows, each a list of `COLS` cells
(`None` = empty, otherwise the owner kind). -/
abbrev Board := List (List (Option Name))

/-- `[None] * COLS`. -/
def emptyRow : List (Option Name) := List.replicate COLS none

/-- `empty_board()`. -/
def emptyBoard : Board := List.replicate ROWS emptyRow

/-- Board lookup `board[r][c]` (both indices already known in-bounds at the
call sites below; out of range reads give `none`/`[]` defaults). -/
def cellAt (board : Board) (rc : Int × Int) : Option Name :=
  (board.getD rc.1.toNat []).getD rc.2.toNat none

/-- The per-cell test inside `is_valid`: bounds, then emptiness. -/
def cellFree (board : Board) (rc : Int × Int) : Bool :=
  if rc.1 < 0 || (ROWS : Int) ≤ rc.1 || rc.2 < 0 || (COLS : Int) ≤ rc.2 then false
  else (cellAt board rc).isNone

/-- `is_valid(board, cells)`. -/
def isValid (board : Board) (cells : List (Int × Int)) : Bool :=
  cells.all (cellFree board)

/-- The bounds guard inside `lock_piece`: `0 <= r < ROWS and 0 <= c < COLS`. -/
def inBoundsCell (rc : Int × Int) : Bool :=
  decide (0 ≤ rc.1) && decide (rc.1 < (ROWS : Int)) &&
  decide (0 ≤ rc.2) && decide (rc.2 < (COLS : Int))

/-- `lock_piece(board, piece)`: write the piece's kind into each in-bounds
cell (cells failing the guard are silently skipped). -/
def lockPiece (board : Board) (p : Piece) : Board :=
  (pieceCells p).foldl
    (fun b rc =>
      if inBoundsCell rc then
        b.set rc.1.toNat ((b.getD rc.1.toNat []).set rc.2.toNat (some p.name))
      else b)
    board

/-- A row is full iff every cell is occupied
(`all(cell is not None for cell in board[r])`). -/
def isFullRow (row : List (Option Name)) : Bool :=
  row.all (fun cell => cell.isSome)

/-- The `while r >= 0` loop of `clear_lines`, with explicit fuel: on a full
row delete it, insert an empty row at the top and keep the same index `r`
(rows above have shifted down); otherwise decrement `r`. -/
def clearLinesLoop : Nat → Board → Int → Nat → Board × Nat
  | 0, board, _, cleared => (board, cleared)
  | fuel + 1, board, r, cleared =>
    if r < 0 then (board, cleared)
    else if isFullRow (board.getD r.toNat []) then
      clearLinesLoop fuel (emptyRow :: board.eraseIdx r.toNat) r (cleared + 1)
    else clearLinesLoop fuel board (r - 1) cleared

/-- `clear_lines(board)`: scan from `r = ROWS - 1` upward.  The loop runs at
most `ROWS + #full-rows ≤ 2·ROWS` iterations, so `2·ROWS + 1` fuel is never
exhausted on a `ROWS`-row board (proved below). -/
def clearLines (board : Board) : Board × Nat :=
  clearLinesLoop (2 * ROWS + 1) board ((ROWS : Int) - 1) 0

/-- The shuffle source: `random.shuffle(PIECE_NAMES[:])` is modelled as an
ambient stream of bag contents, consumed one entry per `_refill_bag` call. -/
abbrev Shuffles := Nat → List Name

/-- `Game._new_piece` at the bag level: refill (from the next stream entry)
when the bag is empty, then `bag.pop()` (pop from the end).  Returns the
drawn kind, the remaining bag and the advanced stream cursor. -/
def newPieceDraw (s : Shuffles) (bag : List Name) (used : Nat) :
    Name × List Name × Nat :=
  let st := if bag.isEmpty then (s used, used + 1) else (bag, used)
  (st.1.getLastD Name.I, st.1.dropLast, st.2)

/-- The kinds produced by `n` successive `_new_piece` draws from a given bag
state. -/
def drawSeq (s : Shuffles) : List Name → Nat → Nat → List Name
  | _, _, 0 => []
  | bag, used, n + 1 =>
    let d := newPieceDraw s bag used
    d.1 :: drawSeq s d.2.1 d.2.2 n

/-- `Game.__init__` / `Game.restart` state. -/
structure GameState where
  board : Board
  score : Int
  lines : Int
  level : Int
  bag : List Name
  used : Nat
  current : Piece
  next : Piece
  game_over : Bool
  paused : Bool
  drop_interval : Int
  drop_timer : Int
  move_delay : Int
  move_repeat : Int
  move_timer : Int
  move_dir : Int
deriving DecidableEq

/-- `Game._calc_interval()`: `max(100, 800 - (level - 1) * 70)`. -/
def calcInterval (level : Int) : Int :=
  max 100 (800 - (level - 1) * 70)

/-- `Game.__init__`, drawing the first two pieces starting at stream cursor
`used0` (0 for a fresh process; `restart` continues the ambient stream). -/
def initFrom (s : Shuffles) (used0 : Nat) : GameState :=
  let d1 := newPieceDraw s [] used0
  let d2 := newPieceDraw s d1.2.1 d1.2.2
  { board := emptyBoard
    score := 0
    lines := 0
    level := 1
    bag := d2.2.1
    used := d2.2.2
    current := mkPiece d1.1
    next := mkPiece d2.1
    game_over := false
    paused := false
    drop_interval := calcInterval 1
    drop_timer := 0
    move_delay := 170
    move_repeat := 50
    move_timer := 0
    move_dir := 0 }

/-- A fresh `Game()`. -/
def initGame (s : Shuffles) : GameState := initFrom s 0

/-- `Game.restart()` = `self.__init__()` (the shuffle stream keeps going). -/
def restart (s : Shuffles) (g : GameState) : GameState := initFrom s g.used

/-- `Game.spawn_next()`: promote `next`, draw a new `next`, set `game_over`
if the promoted piece's cells are invalid. -/
def spawnNext (s : Shuffles) (g : GameState) : GameState :=
  let d := newPieceDraw s g.bag g.used
  let g' := { g with current := g.next, next := mkPiece d.1, bag := d.2.1, used := d.2.2 }
  if isValid g'.board (pieceCells g'.current) then g'
  else { g' with game_over := true }

/-- `Game.move(dr, dc)`: commit the translation iff the translated cells are
valid; return whether it moved.  (No pause/game-over guard in the source.) -/
def gameMove (g : GameState) (dr dc : Int) : GameState × Bool :=
  let new_cells := (pieceCells g.current).map (fun rc => (rc.1 + dr, rc.2 + dc))
  if isValid g.board new_cells then
    ({ g with current := { g.current with row := g.current.row + dr, col := g.current.col + dc } },
     true)
  else (g, false)

/-- The `for offset in [1, -1, 2, -2]` wall-kick loop of `Game.rotate`. -/
def kickLoop (g : GameState) (direction : Int) (new_cells : List (Int × Int)) :
    List Int → GameState
  | [] => g
  | offset :: rest =>
    if isValid g.board (new_cells.map (fun rc => (rc.1, rc.2 + offset))) then
      { g with current := { pieceRotate g.current direction with col := g.current.col + offset } }
    else kickLoop g direction new_cells rest

/-- `Game.rotate(direction)`. -/
def gameRotate (g : GameState) (direction : Int) : GameState :=
  let new_cells := rotatedCells g.current direction
  if isValid g.board new_cells then
    { g with current := pieceRotate g.current direction }
  else kickLoop g direction new_cells [1, -1, 2, -2]

/-- `Game.soft_drop()`: `move(1, 0)` and +1 point on success. -/
def softDrop (g : GameState) : GameState × Bool :=
  let m := gameMove g 1 0
  if m.2 then ({ m.1 with score := m.1.score + 1 }, true) else (m.1, false)

/-- `Game._lock_and_clear()`: lock, clear, update lines/score/level/interval
(score uses the level from before the recompute; `//` is floor division),
then spawn. -/
def lockAndClear (s : Shuffles) (g : GameState) : GameState :=
  let b := lockPiece g.board g.current
  let cl := clearLines b
  let lines' := g.lines + (cl.2 : Int)
  let score' := g.score + LINE_SCORES cl.2 * g.level
  let level' := lines'.fdiv 10 + 1
  spawnNext s
    { g with board := cl.1, lines := lines', score := score', level := level',
             drop_interval := calcInterval level' }

/-- The `while self.move(1, 0): self.score += 2` loop of `hard_drop`, with
fuel (a successful downward move strictly raises the anchor row, which valid
cells bound by `ROWS`, so `ROWS + 1` fuel is never exhausted from a
non-negative row; proved below). -/
def hardDropLoop : Nat → GameState → GameState
  | 0, g => g
  | fuel + 1, g =>
    let m := gameMove g 1 0
    if m.2 then hardDropLoop fuel { m.1 with score := m.1.score + 2 } else m.1

/-- `Game.hard_drop()`. -/
def hardDrop (s : Shuffles) (g : GameState) : GameState :=
  lockAndClear s (hardDropLoop (ROWS + 1) g)

/-- `Game.tick(dt)`: no-op unless running; accumulate the timer; on trigger
reset the timer to 0 and move down, locking and clearing when blocked. -/
def tick (s : Shuffles) (g : GameState) (dt : Int) : GameState :=
  if g.game_over || g.paused then g
  else
    let g1 := { g with drop_timer := g.drop_timer + dt }
    if g1.drop_interval ≤ g1.drop_timer then
      let g2 := { g1 with drop_timer := 0 }
      let m := gameMove g2 1 0
      if m.2 then m.1 else lockAndClear s g2
    else g1

/-- The keys the driver's event loop dispatches on. -/
inductive Key where
  | r | p | left | right | down | up | space
deriving DecidableEq

/-- The per-KEYDOWN dispatch of `main()`: R restarts in every state; all
other keys are dropped on game over; P toggles pause; all remaining keys are
dropped while paused; otherwise the movement/rotation/drop commands run. -/
def handleKey (s : Shuffles) (g : GameState) (key : Key) : GameState :=
  if key = Key.r then restart s g
  else if g.game_over then g
  else if key = Key.p then { g with paused := !g.paused }
  else if g.paused then g
  else
    match key with
    | .left => (gameMove g 0 (-1)).1
    | .right => (gameMove g 0 1).1
    | .down => (softDrop g).1
    | .up => gameRotate g 1
    | .space => hardDrop s g
    | _ => g

/-! ## Helper lemmas for `clear_lines` (claim C1) -/

lemma getD_append_cons {α : Type} (A B : List α) (x d : α) :
    (A ++ x :: B).getD A.length d = x := by
  induction A with
  | nil => rfl
  | cons a A ih => simpa using ih

lemma eraseIdx_append_cons {α : Type} (A B : List α) (x : α) :
    (A ++ x :: B).eraseIdx A.length = A ++ B := by
  induction A with
  | nil => rfl
  | cons a A ih => simpa using ih

lemma isFullRow_emptyRow : isFullRow emptyRow = false := by decide

lemma clearLinesLoop_eq :
    ∀ (fuel : Nat) (A B : Board) (cleared : Nat),
    (∀ row ∈ B, isFullRow row = false) →
    A.length + A.countP isFullRow < fuel →
    clearLinesLoop fuel (A ++ B) ((A.length : Int) - 1) cleared =
      (List.replicate (A.countP isFullRow) emptyRow
        ++ A.filter (fun row => !isFullRow row) ++ B,
       cleared + A.countP isFullRow) := by
  intro fuel
  induction fuel with
  | zero => intro A B cleared _ h; omega
  | succ fuel ih =>
    intro A B cleared hB hlt
    rcases List.eq_nil_or_concat A with rfl | ⟨A', x, rfl⟩
    · simp [clearLinesLoop]
    · rw [List.concat_eq_append] at *
      have hboard : (A' ++ [x]) ++ B = A' ++ x :: B := by simp
      have hlen : (A' ++ [x]).length = A'.length + 1 := by simp
      have hr0 : ¬ ((((A' ++ [x]).length : Int) - 1) < 0) := by
        rw [hlen]; push_cast; omega
      have hrtoNat : (((A' ++ [x]).length : Int) - 1).toNat = A'.length := by
        rw [hlen]; push_cast; omega
      have hget : ((A' ++ [x]) ++ B).getD (((A' ++ [x]).length : Int) - 1).toNat [] = x := by
        rw [hrtoNat, hboard, getD_append_cons]
      rw [clearLinesLoop, if_neg hr0, hget]
      rcases Bool.eq_false_or_eq_true (isFullRow x) with hx | hx
      · -- x is full: delete it, insert an empty row on top, keep the index
        rw [if_pos hx]
        have herase : ((A' ++ [x]) ++ B).eraseIdx (((A' ++ [x]).length : Int) - 1).toNat
            = A' ++ B := by rw [hrtoNat, hboard, eraseIdx_append_cons]
        rw [herase]
        have hstep : emptyRow :: (A' ++ B) = (emptyRow :: A') ++ B := rfl
        have hlen2 : ((A' ++ [x]).length : Int) - 1 = ((emptyRow :: A').length : Int) - 1 := by
          simp
        have hc : (A' ++ [x]).countP isFullRow = A'.countP isFullRow + 1 := by
          rw [List.countP_append]; simp [List.countP_cons, hx]
        have hc2 : (emptyRow :: A').countP isFullRow = A'.countP isFullRow := by
          simp [List.countP_cons, isFullRow_emptyRow]
        rw [hstep, hlen2, ih (emptyRow :: A') B (cleared + 1) hB (by
          rw [hlen] at hlt; rw [hc] at hlt
          simp only [List.length_cons, hc2]; omega)]
        have hf : (emptyRow :: A').filter (fun row => !isFullRow row)
            = emptyRow :: A'.filter (fun row => !isFullRow row) := by
          simp [List.filter_cons, isFullRow_emptyRow]
        have hf2 : (A' ++ [x]).filter (fun row => !isFullRow row)
            = A'.filter (fun row => !isFullRow row) := by
          rw [List.filter_append]; simp [hx]
        rw [hc, hc2, hf, hf2, Prod.mk.injEq]
        constructor
        · rw [List.replicate_succ']
          simp [List.append_assoc]
        · omega
      · -- x is not full: decrement the scan index
        have hx' : ¬ (isFullRow x = true) := by simp [hx]
        rw [if_neg hx']
        have hstep : ((A' ++ [x]).length : Int) - 1 - 1 = ((A'.length : Int)) - 1 := by
          rw [hlen]; push_cast; ring
        have hB' : ∀ row ∈ x :: B, isFullRow row = false := by
          intro row hrow
          rcases List.mem_cons.mp hrow with rfl | h
          · exact hx
          · exact hB row h
        have hc : (A' ++ [x]).countP isFullRow = A'.countP isFullRow := by
          rw [List.countP_append]; simp [List.countP_cons, hx]
        rw [hboard, hstep, ih A' (x :: B) cleared hB' (by
          rw [hlen] at hlt; rw [hc] at hlt; omega)]
        have hf2 : (A' ++ [x]).filter (fun row => !isFullRow row)
            = A'.filter (fun row => !isFullRow row) ++ [x] := by
          rw [List.filter_append]; simp [hx]
        rw [hc, hf2]
        simp [List.append_assoc]

lemma length_replicate_countP_filter {α : Type} (p : α → Bool) (x : α) (l : List α) :
    (List.replicate (l.countP p) x ++ l.filter (fun a => !p a)).length = l.length := by
  induction l with
  | nil => simp
  | cons a l ih =>
    rcases Bool.eq_false_or_eq_true (p a) with h | h <;>
      simp [List.countP_cons, List.filter_cons, h, List.length_append] at ih ⊢ <;>
      omega

lemma clearLines_eq (board : Board) (h : board.length = ROWS) :
    clearLines board =
      (List.replicate (board.countP isFullRow) emptyRow
        ++ board.filter (fun row => !isFullRow row),
       board.countP isFullRow) := by
  have hm : board.length + board.countP isFullRow < 2 * ROWS + 1 := by
    have hc := List.countP_le_length isFullRow (l := board)
    omega
  have := clearLinesLoop_eq (2 * ROWS + 1) board [] 0 (by simp) hm
  simp only [List.append_nil] at this
  have h2 : ((ROWS : Nat) : Int) - 1 = ((board.length : Nat) : Int) - 1 := by rw [h]
  rw [clearLines, h2, this]
  simp

/-- C1: for a `ROWS`-row board, `clear_lines` removes exactly the full rows
(also when non-contiguous), inserts one fully-empty row at the top per removed
row, preserves the total row count and the relative order of the remaining
non-full rows, and returns the number of full rows removed. -/
theorem clear_lines_correct (board : Board) (h : board.length = ROWS) :
    clearLines board =
      (List.replicate (board.countP isFullRow) emptyRow
        ++ board.filter (fun row => !isFullRow row),
       board.countP isFullRow) ∧
    (clearLines board).1.length = board.length ∧
    (clearLines board).2 = board.countP isFullRow ∧
    (∀ row ∈ List.replicate (board.countP isFullRow) emptyRow, ∀ c ∈ row, c = none) := by
  have hcl := clearLines_eq board h
  refine ⟨hcl, ?_, ?_, ?_⟩
  · rw [hcl]
    exact length_replicate_countP_filter isFullRow emptyRow board
  · rw [hcl]
  · intro row hrow c hc
    have hr := List.eq_of_mem_replicate hrow
    subst hr
    have hc' : c ∈ List.replicate COLS (none : Option Name) := by
      simpa [emptyRow] using hc
    exact List.eq_of_mem_replicate hc'

/-- A concrete full row, for the C1 witness. -/
def fullRowW : List (Option Name) := List.replicate COLS (some Name.I)

/-- A 20-row board with two non-contiguous full rows (indices 17 and 19). -/
def boardW : Board := List.replicate 17 emptyRow ++ [fullRowW, emptyRow, fullRowW]

/-- Witness for C1 at a concrete board with non-contiguous full rows. -/
theorem clear_lines_correct_witness :
    boardW.length = ROWS ∧
    (clearLines boardW =
      (List.replicate (boardW.countP isFullRow) emptyRow
        ++ boardW.filter (fun row => !isFullRow row),
       boardW.countP isFullRow) ∧
    (clearLines boardW).1.length = boardW.length ∧
    (clearLines boardW).2 = boardW.countP isFullRow ∧
    (∀ row ∈ List.replicate (boardW.countP isFullRow) emptyRow, ∀ c ∈ row, c = none)) :=
  ⟨by decide, clear_lines_correct boardW (by decide)⟩

/-! ## Rotation index range (claim C9) -/

lemma SHAPES_length_pos (name : Name) : 0 < (SHAPES name).length := by
  cases name <;> decide

lemma SHAPES_length_cases (name : Name) :
    (SHAPES name).length = 1 ∨ (SHAPES name).length = 2 ∨ (SHAPES name).length = 4 := by
  cases name <;> simp [SHAPES]

lemma pieceRotate_name (p : Piece) (d : Int) : (pieceRotate p d).name = p.name := rfl

lemma pieceRotate_range (p : Piece) (d : Int) :
    0 ≤ (pieceRotate p d).rot_index ∧
    (pieceRotate p d).rot_index < ((SHAPES p.name).length : Int) := by
  have h := SHAPES_length_pos p.name
  constructor
  · exact Int.emod_nonneg _ (by omega)
  · exact Int.emod_lt_of_pos _ (by omega)

lemma foldl_pieceRotate_name (ds : List Int) (p : Piece) :
    (ds.foldl pieceRotate p).name = p.name := by
  induction ds generalizing p with
  | nil => rfl
  | cons d ds ih => rw [List.foldl_cons, ih, pieceRotate_name]

lemma foldl_pieceRotate_range (ds : List Int) (p : Piece)
    (h0 : 0 ≤ p.rot_index) (h1 : p.rot_index < ((SHAPES p.name).length : Int)) :
    0 ≤ (ds.foldl pieceRotate p).rot_index ∧
    (ds.foldl pieceRotate p).rot_index < ((SHAPES p.name).length : Int) := by
  induction ds generalizing p with
  | nil => exact ⟨h0, h1⟩
  | cons d ds ih =>
    rw [List.foldl_cons]
    have h := pieceRotate_range p d
    have h2 := ih (pieceRotate p d) h.1 (by rw [pieceRotate_name]; exact h.2)
    rwa [pieceRotate_name] at h2

/-- C9: starting from an in-range rotation index, any finite sequence of
`commit_rotation` calls with directions ±1 keeps the index in `[0, N)` where
`N ∈ {1, 2, 4}` is the kind's rotation count; in particular direction −1
wraps to a non-negative index. -/
theorem rotation_index_in_range (p : Piece) (ds : List Int)
    (h0 : 0 ≤ p.rot_index) (h1 : p.rot_index < ((SHAPES p.name).length : Int))
    (hds : ∀ d ∈ ds, d = 1 ∨ d = -1) :
    0 ≤ (ds.foldl pieceRotate p).rot_index ∧
    (ds.foldl pieceRotate p).rot_index < ((SHAPES p.name).length : Int) ∧
    ((SHAPES p.name).length = 1 ∨ (SHAPES p.name).length = 2 ∨
      (SHAPES p.name).length = 4) := by
  have h := foldl_pieceRotate_range ds p h0 h1
  exact ⟨h.1, h.2, SHAPES_length_cases p.name⟩

/-- Witness for C9: a T piece rotated once counter-clockwise. -/
theorem rotation_index_in_range_witness :
    (0 ≤ (mkPiece Name.T).rot_index ∧
      (mkPiece Name.T).rot_index < ((SHAPES (mkPiece Name.T).name).length : Int) ∧
      (∀ d ∈ [(-1 : Int)], d = 1 ∨ d = -1)) ∧
    (0 ≤ ([(-1 : Int)].foldl pieceRotate (mkPiece Name.T)).rot_index ∧
      ([(-1 : Int)].foldl pieceRotate (mkPiece Name.T)).rot_index
        < ((SHAPES (mkPiece Name.T).name).length : Int) ∧
      ((SHAPES (mkPiece Name.T).name).length = 1 ∨
        (SHAPES (mkPiece Name.T).name).length = 2 ∨
        (SHAPES (mkPiece Name.T).name).length = 4)) :=
  ⟨⟨by decide, by decide, by decide⟩,
   rotation_index_in_range (mkPiece Name.T) [(-1)] (by decide) (by decide) (by decide)⟩

/-! ## Scoring, level and drop interval on lock (claim C3) -/

lemma spawnNext_preserves (s : Shuffles) (g : GameState) :
    (spawnNext s g).board = g.board ∧ (spawnNext s g).score = g.score ∧
    (spawnNext s g).lines = g.lines ∧ (spawnNext s g).level = g.level ∧
    (spawnNext s g).drop_interval = g.drop_interval ∧
    (spawnNext s g).drop_timer = g.drop_timer ∧
    (spawnNext s g).paused = g.paused := by
  simp only [spawnNext]
  split <;> simp

/-- C3: on lock-and-clear with k cleared lines, the score increases by the
table value `LINE_SCORES k` times the level in effect before the recompute;
the new level is `lines // 10 + 1` over the cumulative line count, and the
new drop interval is `max(100, 800 − (level − 1)·70)` for the new level. -/
theorem lock_and_clear_scoring (s : Shuffles) (g : GameState) :
    (lockAndClear s g).score
      = g.score + LINE_SCORES (clearLines (lockPiece g.board g.current)).2 * g.level ∧
    (lockAndClear s g).lines
      = g.lines + ((clearLines (lockPiece g.board g.current)).2 : Int) ∧
    (lockAndClear s g).level
      = (g.lines + ((clearLines (lockPiece g.board g.current)).2 : Int)).fdiv 10 + 1 ∧
    (lockAndClear s g).drop_interval
      = max 100 (800 - ((lockAndClear s g).level - 1) * 70) := by
  have h := spawnNext_preserves s
    { g with board := (clearLines (lockPiece g.board g.current)).1,
             lines := g.lines + ((clearLines (lockPiece g.board g.current)).2 : Int),
             score := g.score
               + LINE_SCORES (clearLines (lockPiece g.board g.current)).2 * g.level,
             level := (g.lines + ((clearLines (lockPiece g.board g.current)).2 : Int)).fdiv 10 + 1,
             drop_interval := calcInterval
               ((g.lines + ((clearLines (lockPiece g.board g.current)).2 : Int)).fdiv 10 + 1) }
  simp only [lockAndClear]
  exact ⟨h.2.1, h.2.2.1, h.2.2.2.1, by rw [h.2.2.2.2.1, h.2.2.2.1]; rfl⟩

/-! ## Wall-kick policy (claim C4) -/

lemma kickLoop_eq_find (g : GameState) (d : Int) (cells : List (Int × Int)) :
    ∀ offs : List Int,
    kickLoop g d cells offs =
      (match offs.find?
          (fun o => isValid g.board (cells.map (fun rc => (rc.1, rc.2 + o)))) with
       | some o =>
         { g with current := { pieceRotate g.current d with col := g.current.col + o } }
       | none => g) := by
  intro offs
  induction offs with
  | nil => rfl
  | cons o rest ih =>
    rw [kickLoop]
    rcases Bool.eq_false_or_eq_true
        (isValid g.board (cells.map (fun rc => (rc.1, rc.2 + o)))) with h | h
    · rw [if_pos h,
        @List.find?_cons_of_pos _ (fun o => isValid g.board
          (cells.map (fun rc => (rc.1, rc.2 + o)))) o rest h]
    · rw [if_neg (by simp [h]), ih,
        @List.find?_cons_of_neg _ (fun o => isValid g.board
          (cells.map (fun rc => (rc.1, rc.2 + o)))) o rest (by simp [h])]

/-- C4: `rotate` commits the naive rotation when its cells are valid;
otherwise the first offset among +1, −1, +2, −2 (in that order) whose kicked
cells are all valid is committed together with the rotation; if none is
valid the state is returned unchanged (no failure signal). -/
theorem rotate_kick_policy (g : GameState) (d : Int) :
    gameRotate g d =
      (if isValid g.board (rotatedCells g.current d) then
        { g with current := pieceRotate g.current d }
      else
        match [1, -1, 2, -2].find?
            (fun o => isValid g.board
              ((rotatedCells g.current d).map (fun rc => (rc.1, rc.2 + o)))) with
        | some o =>
          { g with current := { pieceRotate g.current d with col := g.current.col + o } }
        | none => g) := by
  simp only [gameRotate]
  split
  · rfl
  · exact kickLoop_eq_find g d (rotatedCells g.current d) [1, -1, 2, -2]

/-! ## Paused / game-over command handling (claim C2) -/

/-- A concrete shuffle stream: every refill is the identity bag. -/
def s0 : Shuffles := fun _ => PIECE_NAMES

/-- A freshly started game with the paused flag set. -/
def pausedG : GameState := { initGame s0 with paused := true }

/-- C2 counterexample (claim as stated is false): with the paused flag set,
the engine method `move` still mutates the state — the source guards only
`tick`, while the move/rotate/drop guards live in the driver's event loop. -/
theorem move_mutates_while_paused :
    pausedG.paused = true ∧ (gameMove pausedG 0 1).1 ≠ pausedG := by
  decide

/-- C2 (amended): when the paused flag or the game-over flag is set, `tick`
is a no-op and the driver's per-keydown dispatch rejects the
move/rotate/soft-drop/hard-drop keys; only restart (and pause-toggle when
not game over) is accepted.  The engine methods themselves carry no flag
check. -/
theorem paused_or_over_commands_rejected (s : Shuffles) (g : GameState) (dt : Int)
    (h : g.paused = true ∨ g.game_over = true) :
    tick s g dt = g ∧
    handleKey s g Key.left = g ∧ handleKey s g Key.right = g ∧
    handleKey s g Key.down = g ∧ handleKey s g Key.up = g ∧
    handleKey s g Key.space = g := by
  have htick : tick s g dt = g := by
    rcases h with h | h <;> simp [tick, h]
  have hk : ∀ k, k ≠ Key.r → k ≠ Key.p → handleKey s g k = g := by
    intro k hk1 hk2
    rcases h with h | h
    · cases hgo : g.game_over <;> simp [handleKey, h, hgo, hk1, hk2]
    · simp [handleKey, h, hk1]
  exact ⟨htick, hk _ (by decide) (by decide), hk _ (by decide) (by decide),
    hk _ (by decide) (by decide), hk _ (by decide) (by decide),
    hk _ (by decide) (by decide)⟩

/-- Witness for the amended C2 at a concrete paused state. -/
theorem paused_or_over_commands_rejected_witness :
    (pausedG.paused = true ∨ pausedG.game_over = true) ∧
    (tick s0 pausedG 7 = pausedG ∧
     handleKey s0 pausedG Key.left = pausedG ∧ handleKey s0 pausedG Key.right = pausedG ∧
     handleKey s0 pausedG Key.down = pausedG ∧ handleKey s0 pausedG Key.up = pausedG ∧
     handleKey s0 pausedG Key.space = pausedG) :=
  ⟨Or.inl (by decide),
   paused_or_over_commands_rejected s0 pausedG 7 (Or.inl (by decide))⟩

/-! ## Gravity tick (claim C5) and game-over characterization (claim C7) -/

lemma map_add_zero_col (cells : List (Int × Int)) :
    cells.map (fun rc => (rc.1 + (1 : Int), rc.2 + (0 : Int)))
      = cells.map (fun rc => (rc.1 + 1, rc.2)) := by
  simp

lemma gameMove_game_over (g : GameState) (dr dc : Int) :
    (gameMove g dr dc).1.game_over = g.game_over := by
  simp only [gameMove]
  split <;> rfl

lemma kickLoop_game_over (g : GameState) (d : Int) (cells : List (Int × Int)) :
    ∀ offs : List Int, (kickLoop g d cells offs).game_over = g.game_over := by
  intro offs
  induction offs with
  | nil => rfl
  | cons o rest ih =>
    rw [kickLoop]
    split
    · rfl
    · exact ih

lemma gameRotate_game_over (g : GameState) (d : Int) :
    (gameRotate g d).game_over = g.game_over := by
  simp only [gameRotate]
  split
  · rfl
  · exact kickLoop_game_over g d _ _

lemma softDrop_game_over (g : GameState) :
    (softDrop g).1.game_over = g.game_over := by
  simp only [softDrop]
  split
  · show (gameMove g 1 0).1.game_over = g.game_over
    exact gameMove_game_over g 1 0
  · exact gameMove_game_over g 1 0

lemma spawnNext_game_over (s : Shuffles) (g : GameState) :
    (spawnNext s g).game_over = (g.game_over || !(isValid g.board (pieceCells g.next))) := by
  simp only [spawnNext]
  rcases Bool.eq_false_or_eq_true (isValid g.board (pieceCells g.next)) with h | h <;>
    simp [h]

lemma lockAndClear_game_over (s : Shuffles) (g : GameState) :
    (lockAndClear s g).game_over
      = (g.game_over
          || !(isValid (clearLines (lockPiece g.board g.current)).1 (pieceCells g.next))) := by
  simp only [lockAndClear]
  rw [spawnNext_game_over]

lemma hardDropLoop_game_over (fuel : Nat) (g : GameState) :
    (hardDropLoop fuel g).game_over = g.game_over := by
  induction fuel generalizing g with
  | zero => rfl
  | succ fuel ih =>
    rw [hardDropLoop]
    split
    · rw [ih]
      exact gameMove_game_over g 1 0
    · exact gameMove_game_over g 1 0

lemma tick_cases (s : Shuffles) (g : GameState) (dt : Int) :
    ((g.game_over = true ∨ g.paused = true) → tick s g dt = g) ∧
    (g.game_over = false → g.paused = false →
      ((g.drop_timer + dt < g.drop_interval →
         tick s g dt = { g with drop_timer := g.drop_timer + dt }) ∧
       (g.drop_interval ≤ g.drop_timer + dt →
         isValid g.board ((pieceCells g.current).map (fun rc => (rc.1 + 1, rc.2))) = true →
         tick s g dt
           = { g with drop_timer := 0,
                      current := { g.current with row := g.current.row + 1 } }) ∧
       (g.drop_interval ≤ g.drop_timer + dt →
         isValid g.board ((pieceCells g.current).map (fun rc => (rc.1 + 1, rc.2))) = false →
         tick s g dt = lockAndClear s { g with drop_timer := 0 }))) := by
  constructor
  · intro h
    rcases h with h | h <;> simp [tick, h]
  · intro hgo hp
    have hguard : (g.game_over || g.paused) = false := by rw [hgo, hp]; rfl
    refine ⟨?_, ?_, ?_⟩
    · intro hlt
      simp only [tick, hguard, Bool.false_eq_true, if_false]
      rw [if_neg (by omega)]
    · intro hge hv
      simp only [tick, hguard, Bool.false_eq_true, if_false]
      rw [if_pos (by omega)]
      simp only [gameMove]
      rw [map_add_zero_col, if_pos hv]
      simp
    · intro hge hv
      simp only [tick, hguard, Bool.false_eq_true, if_false]
      rw [if_pos (by omega)]
      simp only [gameMove]
      rw [map_add_zero_col, if_neg (by simp [hv])]

/-- C5: in a running state, `tick` adds the elapsed time to the drop timer;
when the timer reaches the interval it is reset to exactly 0 and a one-row
downward move is attempted, with lock-and-clear performed when the move is
invalid — so a single tick descends the falling piece by at most one row
however large the elapsed time. -/
theorem tick_gravity (s : Shuffles) (g : GameState) (dt : Int)
    (hgo : g.game_over = false) (hp : g.paused = false) :
    (g.drop_timer + dt < g.drop_interval →
      tick s g dt = { g with drop_timer := g.drop_timer + dt }) ∧
    (g.drop_interval ≤ g.drop_timer + dt →
      isValid g.board ((pieceCells g.current).map (fun rc => (rc.1 + 1, rc.2))) = true →
      tick s g dt
        = { g with drop_timer := 0,
                   current := { g.current with row := g.current.row + 1 } }) ∧
    (g.drop_interval ≤ g.drop_timer + dt →
      isValid g.board ((pieceCells g.current).map (fun rc => (rc.1 + 1, rc.2))) = false →
      tick s g dt = lockAndClear s { g with drop_timer := 0 }) ∧
    ((tick s g dt).current = g.current ∨
      (tick s g dt).current = { g.current with row := g.current.row + 1 } ∨
      tick s g dt = lockAndClear s { g with drop_timer := 0 }) := by
  have h := (tick_cases s g dt).2 hgo hp
  refine ⟨h.1, h.2.1, h.2.2, ?_⟩
  rcases lt_or_le (g.drop_timer + dt) g.drop_interval with hlt | hge
  · left
    rw [h.1 hlt]
  · rcases Bool.eq_false_or_eq_true
        (isValid g.board ((pieceCells g.current).map (fun rc => (rc.1 + 1, rc.2)))) with hv | hv
    · right; left
      rw [h.2.1 hge hv]
    · right; right
      exact h.2.2 hge hv

/-- Witness for C5 at a freshly started game. -/
theorem tick_gravity_witness :
    ((initGame s0).game_over = false ∧ (initGame s0).paused = false) ∧
    ((tick s0 (initGame s0) 7).current = (initGame s0).current ∨
      (tick s0 (initGame s0) 7).current
        = { (initGame s0).current with row := (initGame s0).current.row + 1 } ∨
      tick s0 (initGame s0) 7 = lockAndClear s0 { initGame s0 with drop_timer := 0 }) :=
  ⟨⟨by decide, by decide⟩,
   (tick_gravity s0 (initGame s0) 7 (by decide) (by decide)).2.2.2⟩

/-- C7: the game-over flag is set exactly by a spawn whose freshly promoted
piece has invalid cells: `move`, `rotate`, `soft_drop` and the hard-drop
descent loop never change the flag, `spawn_next` (and hence lock-and-clear,
hard drop, and a gravity-blocked tick) ors it with the spawn-collision test,
and `restart` clears it. -/
theorem game_over_only_on_spawn_collision (s : Shuffles) (g : GameState)
    (dr dc d dt : Int) :
    (gameMove g dr dc).1.game_over = g.game_over ∧
    (gameRotate g d).game_over = g.game_over ∧
    (softDrop g).1.game_over = g.game_over ∧
    (spawnNext s g).game_over
      = (g.game_over || !(isValid g.board (pieceCells g.next))) ∧
    (lockAndClear s g).game_over
      = (g.game_over
          || !(isValid (clearLines (lockPiece g.board g.current)).1 (pieceCells g.next))) ∧
    (hardDropLoop (ROWS + 1) g).game_over = g.game_over ∧
    (hardDrop s g).game_over
      = (g.game_over
          || !(isValid
                (clearLines (lockPiece (hardDropLoop (ROWS + 1) g).board
                  (hardDropLoop (ROWS + 1) g).current)).1
                (pieceCells (hardDropLoop (ROWS + 1) g).next))) ∧
    (tick s g dt).game_over
      = (g.game_over
          || (!g.paused && decide (g.drop_interval ≤ g.drop_timer + dt)
              && !(isValid g.board ((pieceCells g.current).map (fun rc => (rc.1 + 1, rc.2))))
              && !(isValid (clearLines (lockPiece g.board g.current)).1
                    (pieceCells g.next)))) ∧
    (restart s g).game_over = false := by
  refine ⟨gameMove_game_over g dr dc, gameRotate_game_over g d, softDrop_game_over g,
    spawnNext_game_over s g, lockAndClear_game_over s g,
    hardDropLoop_game_over (ROWS + 1) g, ?_, ?_, rfl⟩
  · show (lockAndClear s (hardDropLoop (ROWS + 1) g)).game_over = _
    rw [lockAndClear_game_over, hardDropLoop_game_over]
  · have h := tick_cases s g dt
    rcases Bool.eq_false_or_eq_true g.game_over with hgo | hgo
    · rw [h.1 (Or.inl hgo)]
      simp [hgo]
    · rcases Bool.eq_false_or_eq_true g.paused with hp | hp
      · rw [h.1 (Or.inr hp)]
        simp [hgo, hp]
      · have h2 := h.2 hgo hp
        rcases lt_or_le (g.drop_timer + dt) g.drop_interval with hlt | hge
        · rw [h2.1 hlt]
          simp [hgo, hp, show ¬(g.drop_interval ≤ g.drop_timer + dt) from not_le.mpr hlt]
        · rcases Bool.eq_false_or_eq_true
              (isValid g.board ((pieceCells g.current).map (fun rc => (rc.1 + 1, rc.2))))
              with hv | hv
          · rw [h2.2.1 hge hv]
            simp [hgo, hp, hge, hv]
          · rw [h2.2.2 hge hv, lockAndClear_game_over]
            simp [hgo, hp, hge, hv]

/-! ## Hard drop termination, scoring and resting position (claim C6) -/

lemma shape_rows_nonneg :
    ∀ name : Name, ∀ rot ∈ SHAPES name, ∀ o ∈ rot, 0 ≤ o.1 := by
  decide

lemma pieceCells_rots_mem (p : Piece) (h : pieceCells p ≠ []) :
    (SHAPES p.name).getD p.rot_index.toNat [] ∈ SHAPES p.name := by
  rcases Nat.lt_or_ge p.rot_index.toNat (SHAPES p.name).length with hlt | hge
  · rw [List.getD_eq_getElem _ _ hlt]
    exact List.getElem_mem hlt
  · exfalso
    apply h
    simp only [pieceCells, List.getD_eq_default _ _ hge, List.map_nil]

lemma exists_cell_row_ge (p : Piece) (h : pieceCells p ≠ []) :
    ∃ rc ∈ pieceCells p, p.row ≤ rc.1 := by
  have hrots : (SHAPES p.name).getD p.rot_index.toNat [] ≠ [] := by
    intro hnil
    apply h
    simp only [pieceCells, hnil, List.map_nil]
  rcases List.exists_mem_of_ne_nil _ hrots with ⟨o, ho⟩
  refine ⟨(p.row + o.1, p.col + o.2), List.mem_map_of_mem _ ho, ?_⟩
  have := shape_rows_nonneg p.name _ (pieceCells_rots_mem p h) o ho
  simp only []
  omega

lemma down_invalid_of_row_ge (g : GameState) (hne : pieceCells g.current ≠ [])
    (hrow : (ROWS : Int) ≤ g.current.row) :
    isValid g.board ((pieceCells g.current).map (fun rc => (rc.1 + 1, rc.2))) = false := by
  obtain ⟨rc, hmem, hge⟩ := exists_cell_row_ge g.current hne
  rw [isValid, List.all_eq_false]
  refine ⟨(rc.1 + 1, rc.2), List.mem_map_of_mem _ hmem, ?_⟩
  simp [cellFree, show (ROWS : Int) ≤ rc.1 + 1 by omega]

lemma row_bound_of_valid_down (g : GameState) (hne : pieceCells g.current ≠ [])
    (hv : isValid g.board ((pieceCells g.current).map (fun rc => (rc.1 + 1, rc.2))) = true) :
    g.current.row + 1 ≤ (ROWS : Int) - 1 := by
  obtain ⟨rc, hmem, hge⟩ := exists_cell_row_ge g.current hne
  have hfree := (List.all_eq_true.mp hv) _ (List.mem_map_of_mem _ hmem)
  rcases Bool.eq_false_or_eq_true (decide ((ROWS : Int) ≤ rc.1 + 1)) with hb | hb
  · exfalso
    simp [cellFree, hb] at hfree
  · have := of_decide_eq_false hb
    omega

lemma gameMove_down (g : GameState) :
    (isValid g.board ((pieceCells g.current).map (fun rc => (rc.1 + 1, rc.2))) = true →
      gameMove g 1 0 = ({ g with current := { g.current with row := g.current.row + 1 } }, true)) ∧
    (isValid g.board ((pieceCells g.current).map (fun rc => (rc.1 + 1, rc.2))) = false →
      gameMove g 1 0 = (g, false)) := by
  constructor <;> intro hv <;> simp only [gameMove] <;> rw [map_add_zero_col] <;> simp [hv]

lemma pieceCells_row_update_ne_nil (g : GameState) (hne : pieceCells g.current ≠ []) (r : Int) :
    pieceCells { g.current with row := r } ≠ [] := by
  simp only [pieceCells, ne_eq, List.map_eq_nil_iff] at hne ⊢
  exact hne

lemma hardDropLoop_spec :
    ∀ (fuel : Nat) (g : GameState),
    pieceCells g.current ≠ [] →
    (ROWS : Int) ≤ g.current.row + (fuel : Int) →
    (hardDropLoop fuel g).board = g.board ∧
    (hardDropLoop fuel g).current.name = g.current.name ∧
    (hardDropLoop fuel g).current.rot_index = g.current.rot_index ∧
    (hardDropLoop fuel g).current.col = g.current.col ∧
    g.current.row ≤ (hardDropLoop fuel g).current.row ∧
    (hardDropLoop fuel g).current.row ≤ max g.current.row ((ROWS : Int) - 1) ∧
    (hardDropLoop fuel g).score
      = g.score + 2 * ((hardDropLoop fuel g).current.row - g.current.row) ∧
    isValid (hardDropLoop fuel g).board
      ((pieceCells (hardDropLoop fuel g).current).map (fun rc => (rc.1 + 1, rc.2)))
      = false := by
  intro fuel
  induction fuel with
  | zero =>
    intro g hne hfuel
    refine ⟨rfl, rfl, rfl, rfl, le_refl _, le_max_left _ _, by simp [hardDropLoop], ?_⟩
    exact down_invalid_of_row_ge g hne (by push_cast at hfuel; omega)
  | succ fuel ih =>
    intro g hne hfuel
    rcases Bool.eq_false_or_eq_true
        (isValid g.board ((pieceCells g.current).map (fun rc => (rc.1 + 1, rc.2))))
        with hv | hv
    · -- the downward move succeeds: take one step and recurse
      have hmv := (gameMove_down g).1 hv
      have hrow1 := row_bound_of_valid_down g hne hv
      rw [hardDropLoop, hmv]
      simp only [if_true]
      set g2 : GameState :=
        { g with current := { g.current with row := g.current.row + 1 },
                 score := g.score + 2 } with hg2
      have hstep : ({ g with current := { g.current with row := g.current.row + 1 } },
          true).1 = { g2 with score := g.score } := by
        simp [hg2]
      have hne2 : pieceCells g2.current ≠ [] := pieceCells_row_update_ne_nil g hne _
      have hfuel2 : (ROWS : Int) ≤ g2.current.row + (fuel : Int) := by
        have : g2.current.row = g.current.row + 1 := rfl
        push_cast at hfuel ⊢
        omega
      have h := ih g2 hne2 hfuel2
      have hscore2 : g2.score = g.score + 2 := rfl
      have hrow2 : g2.current.row = g.current.row + 1 := rfl
      have hname2 : g2.current.name = g.current.name := rfl
      have hrot2 : g2.current.rot_index = g.current.rot_index := rfl
      have hcol2 : g2.current.col = g.current.col := rfl
      have hboard2 : g2.board = g.board := rfl
      have hgoal : hardDropLoop fuel
          { ({ g with current := { g.current with row := g.current.row + 1 } } :
              GameState) with score :=
              ({ g with current := { g.current with row := g.current.row + 1 } } :
                GameState).score + 2 } = hardDropLoop fuel g2 := rfl
      rw [hgoal]
      refine ⟨h.1.trans hboard2, h.2.1.trans hname2, h.2.2.1.trans hrot2,
        h.2.2.2.1.trans hcol2, ?_, ?_, ?_, h.2.2.2.2.2.2.2⟩
      · have := h.2.2.2.2.1
        rw [hrow2] at this
        omega
      · have := h.2.2.2.2.2.1
        rw [hrow2] at this
        have hm : max (g.current.row + 1) ((ROWS : Int) - 1) = (ROWS : Int) - 1 :=
          max_eq_right (by omega)
        rw [hm] at this
        exact le_trans this (le_max_right _ _)
      · have := h.2.2.2.2.2.2.1
        rw [hrow2, hscore2] at this
        rw [this]
        ring
    · -- the downward move fails: the loop stops with the state unchanged
      have hmv := (gameMove_down g).2 hv
      rw [hardDropLoop, hmv]
      rw [if_neg (by simp)]
      exact ⟨rfl, rfl, rfl, rfl, le_refl _, le_max_left _ _, by simp, hv⟩

/-- The concrete scenario state: an O piece at spawn on an empty board. -/
def oGame : GameState :=
  { board := emptyBoard, score := 0, lines := 0, level := 1, bag := [], used := 0,
    current := mkPiece .O, next := mkPiece .I, game_over := false, paused := false,
    drop_interval := 800, drop_timer := 0, move_delay := 170, move_repeat := 50,
    move_timer := 0, move_dir := 0 }

/-- A row holding the locked O piece at columns 4 and 5. -/
def oRow : List (Option Name) :=
  List.replicate 4 none ++ [some Name.O, some Name.O] ++ List.replicate 4 none

/-- C6: from a state whose current piece has a non-negative anchor row and a
non-empty cell set, `hard_drop` runs the descent loop to rest (at most ROWS
one-row moves, +2 points each) and then locks and clears: the piece cannot
move down one further row, the board is untouched before locking, and the
score grew by twice the rows fallen.  In particular an O piece hard-dropped
on an empty board locks in the bottom two rows, clears nothing, and adds
2 × 18 points. -/
theorem hard_drop_spec (s : Shuffles) (g : GameState)
    (hrow : 0 ≤ g.current.row) (hne : pieceCells g.current ≠ []) :
    hardDrop s g = lockAndClear s (hardDropLoop (ROWS + 1) g) ∧
    g.current.row ≤ (hardDropLoop (ROWS + 1) g).current.row ∧
    (hardDropLoop (ROWS + 1) g).current.row - g.current.row ≤ (ROWS : Int) ∧
    (hardDropLoop (ROWS + 1) g).score
      = g.score + 2 * ((hardDropLoop (ROWS + 1) g).current.row - g.current.row) ∧
    (hardDropLoop (ROWS + 1) g).board = g.board ∧
    isValid (hardDropLoop (ROWS + 1) g).board
      ((pieceCells (hardDropLoop (ROWS + 1) g).current).map (fun rc => (rc.1 + 1, rc.2)))
      = false ∧
    ((hardDrop s0 oGame).board = List.replicate 18 emptyRow ++ [oRow, oRow] ∧
      (hardDrop s0 oGame).lines = 0 ∧
      (hardDrop s0 oGame).score = oGame.score + 2 * 18) := by
  have h := hardDropLoop_spec (ROWS + 1) g hne (by push_cast; omega)
  refine ⟨rfl, h.2.2.2.2.1, ?_, h.2.2.2.2.2.2.1, h.1, h.2.2.2.2.2.2.2,
    by decide, by decide, by decide⟩
  have hmax := h.2.2.2.2.2.1
  rcases max_le_iff.mp (le_refl (max g.current.row ((ROWS : Int) - 1))) with ⟨h1, h2⟩
  rcases le_max_iff.mp hmax with h3 | h3 <;> omega

/-- Witness for C6 at the concrete O-piece scenario. -/
theorem hard_drop_spec_witness :
    (0 ≤ oGame.current.row ∧ pieceCells oGame.current ≠ []) ∧
    (hardDropLoop (ROWS + 1) oGame).score
      = oGame.score + 2 * ((hardDropLoop (ROWS + 1) oGame).current.row - oGame.current.row) :=
  ⟨⟨by decide, by decide⟩, (hard_drop_spec s0 oGame (by decide) (by decide)).2.2.2.1⟩

/-! ## Reachable-state invariant: the current piece occupies valid cells
(claim C10) -/

/-- Engine states reachable through the public command API (any arguments),
starting from a fresh game. -/
inductive Reachable (s : Shuffles) : GameState → Prop where
  | init : Reachable s (initGame s)
  | move (g : GameState) (dr dc : Int) : Reachable s g → Reachable s (gameMove g dr dc).1
  | rot (g : GameState) (d : Int) : Reachable s g → Reachable s (gameRotate g d)
  | soft (g : GameState) : Reachable s g → Reachable s (softDrop g).1
  | hard (g : GameState) : Reachable s g → Reachable s (hardDrop s g)
  | gravity (g : GameState) (dt : Int) : Reachable s g → Reachable s (tick s g dt)
  | spawn (g : GameState) : Reachable s g → Reachable s (spawnNext s g)
  | pauseToggle (g : GameState) : Reachable s g → Reachable s { g with paused := !g.paused }
  | restartKey (g : GameState) : Reachable s g → Reachable s (restart s g)

/-- The invariant: unless game over, the current piece's cells are valid. -/
def Inv (g : GameState) : Prop :=
  g.game_over = false → isValid g.board (pieceCells g.current) = true

lemma pieceCells_move (p : Piece) (dr dc : Int) :
    pieceCells { p with row := p.row + dr, col := p.col + dc }
      = (pieceCells p).map (fun rc => (rc.1 + dr, rc.2 + dc)) := by
  simp only [pieceCells, List.map_map]
  congr 1
  funext o
  simp only [Function.comp_apply]
  rw [Prod.mk.injEq]
  exact ⟨by ring, by ring⟩

lemma pieceCells_down (p : Piece) :
    pieceCells { p with row := p.row + 1 }
      = (pieceCells p).map (fun rc => (rc.1 + 1, rc.2)) := by
  simp only [pieceCells, List.map_map]
  congr 1
  funext o
  simp only [Function.comp_apply]
  rw [Prod.mk.injEq]
  exact ⟨by ring, rfl⟩

lemma pieceCells_pieceRotate (p : Piece) (d : Int) :
    pieceCells (pieceRotate p d) = rotatedCells p d := rfl

lemma pieceCells_rotate_shift (p : Piece) (d o : Int) :
    pieceCells { pieceRotate p d with col := p.col + o }
      = (rotatedCells p d).map (fun rc => (rc.1, rc.2 + o)) := by
  simp only [pieceCells, rotatedCells, pieceRotate, List.map_map]
  congr 1
  funext x
  simp only [Function.comp_apply]
  rw [Prod.mk.injEq]
  exact ⟨rfl, by ring⟩

lemma spawn_valid_empty : ∀ k : Name, isValid emptyBoard (pieceCells (mkPiece k)) = true := by
  decide

lemma inv_initFrom (s : Shuffles) (u : Nat) : Inv (initFrom s u) := by
  intro _
  show isValid emptyBoard (pieceCells (mkPiece (newPieceDraw s [] u).1)) = true
  exact spawn_valid_empty _

lemma inv_gameMove (g : GameState) (dr dc : Int) (h : Inv g) : Inv (gameMove g dr dc).1 := by
  simp only [Inv, gameMove]
  split
  case isTrue hv =>
    intro _
    rw [pieceCells_move]
    exact hv
  case isFalse hv =>
    intro hgo
    exact h hgo

lemma inv_kickLoop (g : GameState) (d : Int) (h : Inv g) :
    ∀ offs : List Int, Inv (kickLoop g d (rotatedCells g.current d) offs) := by
  intro offs
  induction offs with
  | nil => exact h
  | cons o rest ih =>
    rw [kickLoop]
    split
    case isTrue hv =>
      intro _
      show isValid g.board
        (pieceCells { pieceRotate g.current d with col := g.current.col + o }) = true
      rw [pieceCells_rotate_shift]
      exact hv
    case isFalse hv => exact ih

lemma inv_gameRotate (g : GameState) (d : Int) (h : Inv g) : Inv (gameRotate g d) := by
  simp only [gameRotate]
  split
  case isTrue hv =>
    intro _
    rw [pieceCells_pieceRotate]
    exact hv
  case isFalse hv => exact inv_kickLoop g d h [1, -1, 2, -2]

lemma inv_softDrop (g : GameState) (h : Inv g) : Inv (softDrop g).1 := by
  simp only [softDrop]
  split
  case isTrue hm =>
    intro hgo
    exact inv_gameMove g 1 0 h hgo
  case isFalse hm => exact inv_gameMove g 1 0 h

lemma inv_spawnNext (s : Shuffles) (g : GameState) : Inv (spawnNext s g) := by
  simp only [Inv, spawnNext]
  split
  case isTrue hv =>
    intro _
    exact hv
  case isFalse hv =>
    intro hgo
    simp at hgo

lemma inv_lockAndClear (s : Shuffles) (g : GameState) : Inv (lockAndClear s g) := by
  simp only [lockAndClear]
  exact inv_spawnNext s _

lemma inv_tick (s : Shuffles) (g : GameState) (dt : Int) (h : Inv g) : Inv (tick s g dt) := by
  rcases Bool.eq_false_or_eq_true g.game_over with hgo | hgo
  · rw [(tick_cases s g dt).1 (Or.inl hgo)]
    exact h
  · rcases Bool.eq_false_or_eq_true g.paused with hp | hp
    · rw [(tick_cases s g dt).1 (Or.inr hp)]
      exact h
    · have h2 := (tick_cases s g dt).2 hgo hp
      rcases lt_or_le (g.drop_timer + dt) g.drop_interval with hlt | hge
      · rw [h2.1 hlt]
        intro _
        exact h hgo
      · rcases Bool.eq_false_or_eq_true
            (isValid g.board ((pieceCells g.current).map (fun rc => (rc.1 + 1, rc.2))))
            with hv | hv
        · rw [h2.2.1 hge hv]
          intro _
          show isValid g.board (pieceCells { g.current with row := g.current.row + 1 }) = true
          rw [pieceCells_down]
          exact hv
        · rw [h2.2.2 hge hv]
          exact inv_lockAndClear s _

lemma inv_hardDropLoop (fuel : Nat) (g : GameState) (h : Inv g) : Inv (hardDropLoop fuel g) := by
  induction fuel generalizing g with
  | zero => exact h
  | succ fuel ih =>
    rw [hardDropLoop]
    split
    case isTrue hm =>
      apply ih
      intro hgo
      exact inv_gameMove g 1 0 h hgo
    case isFalse hm => exact inv_gameMove g 1 0 h

lemma inv_hardDrop (s : Shuffles) (g : GameState) : Inv (hardDrop s g) := by
  rw [hardDrop]
  exact inv_lockAndClear s _

lemma inv_pauseToggle (g : GameState) (h : Inv g) : Inv { g with paused := !g.paused } := by
  intro hgo
  exact h hgo

lemma reachable_inv (s : Shuffles) (g : GameState) (hr : Reachable s g) : Inv g := by
  induction hr with
  | init => exact inv_initFrom s 0
  | move g dr dc _ ih => exact inv_gameMove g dr dc ih
  | rot g d _ ih => exact inv_gameRotate g d ih
  | soft g _ ih => exact inv_softDrop g ih
  | hard g _ _ => exact inv_hardDrop s g
  | gravity g dt _ ih => exact inv_tick s g dt ih
  | spawn g _ _ => exact inv_spawnNext s g
  | pauseToggle g _ ih => exact inv_pauseToggle g ih
  | restartKey g _ _ => exact inv_initFrom s g.used

lemma cellFree_implies (board : Board) (rc : Int × Int) (h : cellFree board rc = true) :
    inBoundsCell rc = true ∧ cellAt board rc = none := by
  revert h
  unfold cellFree
  split
  · intro h
    exact absurd h (by simp)
  · intro h
    rename_i hc
    simp only [Bool.or_eq_true, decide_eq_true_eq, not_or] at hc
    constructor
    · simp only [inBoundsCell, Bool.and_eq_true, decide_eq_true_eq]
      omega
    · exact Option.isNone_iff_eq_none.mp h

/-- C10: in every reachable state that is not game over, the current piece's
cells are all valid — inside the `[0,ROWS) × [0,COLS)` bounds (so the guard
in `lock_piece` skips nothing) and over empty board cells. -/
theorem current_piece_valid_invariant (s : Shuffles) (g : GameState)
    (hr : Reachable s g) (hgo : g.game_over = false) :
    isValid g.board (pieceCells g.current) = true ∧
    (∀ rc ∈ pieceCells g.current, inBoundsCell rc = true ∧ cellAt g.board rc = none) := by
  have h := reachable_inv s g hr hgo
  refine ⟨h, ?_⟩
  intro rc hmem
  exact cellFree_implies g.board rc ((List.all_eq_true.mp h) rc hmem)

/-- Witness for C10 at the initial state. -/
theorem current_piece_valid_invariant_witness :
    (initGame s0).game_over = false ∧
    (isValid (initGame s0).board (pieceCells (initGame s0).current) = true ∧
     (∀ rc ∈ pieceCells (initGame s0).current,
        inBoundsCell rc = true ∧ cellAt (initGame s0).board rc = none)) :=
  ⟨by decide, current_piece_valid_invariant s0 (initGame s0) Reachable.init (by decide)⟩

/-! ## 7-bag randomizer (claim C8) -/

lemma newPieceDraw_nonempty (s : Shuffles) (bag : List Name) (u : Nat) (h : bag ≠ []) :
    newPieceDraw s bag u = (bag.getLastD Name.I, bag.dropLast, u) := by
  simp [newPieceDraw, List.isEmpty_eq_false.mpr h]

lemma newPieceDraw_nil (s : Shuffles) (u : Nat) :
    newPieceDraw s [] u = ((s u).getLastD Name.I, (s u).dropLast, u + 1) := by
  simp [newPieceDraw]

lemma reverse_eq_getLastD_cons (l : List Name) (h : l ≠ []) :
    l.reverse = l.getLastD Name.I :: l.dropLast.reverse := by
  conv_lhs => rw [← List.dropLast_append_getLast h]
  rw [List.reverse_concat]
  congr 1
  rw [List.getLastD_eq_getLast?, List.getLast?_eq_getLast l h]
  rfl

lemma drawSeq_drain (s : Shuffles) :
    ∀ (n : Nat) (bag : List Name), bag.length = n →
    ∀ (u m : Nat), drawSeq s bag u (n + m) = bag.reverse ++ drawSeq s [] u m := by
  intro n
  induction n with
  | zero =>
    intro bag hb u m
    rw [List.length_eq_zero.mp hb]
    simp
  | succ n ih =>
    intro bag hb u m
    have hne : bag ≠ [] := by
      intro h
      rw [h] at hb
      simp at hb
    rw [Nat.add_right_comm]
    simp only [drawSeq]
    rw [newPieceDraw_nonempty s bag u hne]
    dsimp only
    rw [ih bag.dropLast (by rw [List.length_dropLast, hb]; omega) u m]
    rw [reverse_eq_getLastD_cons bag hne]
    rfl

lemma drawSeq_refill (s : Shuffles) (u m : Nat) (hlen : (s u).length = 7) :
    drawSeq s [] u (7 + m) = (s u).reverse ++ drawSeq s [] (u + 1) m := by
  rw [show (7 : Nat) + m = 6 + m + 1 from by omega]
  simp only [drawSeq]
  rw [newPieceDraw_nil s u]
  dsimp only
  have hd : (s u).dropLast.length = 6 := by rw [List.length_dropLast, hlen]
  rw [show (6 : Nat) + m = (s u).dropLast.length + m from by rw [hd]]
  rw [drawSeq_drain s (s u).dropLast.length (s u).dropLast rfl (u + 1) m]
  have hne : (s u) ≠ [] := by
    intro h
    rw [h] at hlen
    simp at hlen
  rw [reverse_eq_getLastD_cons (s u) hne]
  rfl

lemma drawSeq_window (s : Shuffles) (hlen : ∀ i, (s i).length = 7) :
    ∀ (n u : Nat), (drawSeq s [] u (7 * n + 7)).drop (7 * n) = (s (u + n)).reverse := by
  intro n
  induction n with
  | zero =>
    intro u
    have h := drawSeq_refill s u 0 (hlen u)
    rw [show 7 * 0 + 7 = 7 + 0 from by norm_num, h]
    simp [drawSeq]
  | succ n ih =>
    intro u
    have h := drawSeq_refill s u (7 * n + 7) (hlen u)
    rw [show 7 * (n + 1) + 7 = 7 + (7 * n + 7) from by ring, h]
    rw [show 7 * (n + 1) = (s u).reverse.length + 7 * n from by
      rw [List.length_reverse, hlen u]; ring]
    rw [List.drop_append, ih (u + 1), show u + 1 + n = u + (n + 1) from by omega]

lemma drawSeq_take (s : Shuffles) :
    ∀ (n N : Nat) (bag : List Name) (u : Nat), n ≤ N →
    (drawSeq s bag u N).take n = drawSeq s bag u n := by
  intro n
  induction n with
  | zero => intro N bag u _; rfl
  | succ n ih =>
    intro N bag u hle
    cases N with
    | zero => omega
    | succ M =>
      simp only [drawSeq]
      rw [List.take_succ_cons]
      rw [ih M _ _ (by omega)]

lemma drawSeq_block (s : Shuffles) (hlen : ∀ i, (s i).length = 7)
    (n N : Nat) (h : 7 * n + 7 ≤ N) :
    ((drawSeq s [] 0 N).drop (7 * n)).take 7 = (s n).reverse := by
  have htake : (drawSeq s [] 0 N).take (7 * n + 7) = drawSeq s [] 0 (7 * n + 7) :=
    drawSeq_take s (7 * n + 7) N [] 0 h
  have hdt := List.drop_take (7 * n + 7) (7 * n) (drawSeq s [] 0 N)
  rw [show 7 * n + 7 - 7 * n = 7 from by omega] at hdt
  rw [← hdt, htake, drawSeq_window s hlen n 0, Nat.zero_add]

lemma count_PIECE_NAMES : ∀ k : Name, PIECE_NAMES.count k = 1 := by decide

lemma mem_PIECE_NAMES : ∀ k : Name, k ∈ PIECE_NAMES := by decide

/-- C8: drawing through `_new_piece` from an initially empty bag, any window
of 7 consecutive draws aligned to a bag boundary contains each of the seven
kinds exactly once (for every stream of shuffled bags, i.e. permutations of
`PIECE_NAMES`), and any 13 consecutive draws contain every kind — so no kind
is absent for more than 12 consecutive draws. -/
theorem bag_randomizer (s : Shuffles) (hperm : ∀ i, (s i).Perm PIECE_NAMES) :
    (∀ (n : Nat) (k : Name),
      ((drawSeq s [] 0 (7 * n + 7)).drop (7 * n)).count k = 1) ∧
    (∀ (i N : Nat) (k : Name), i + 13 ≤ N →
      k ∈ ((drawSeq s [] 0 N).drop i).take 13) := by
  have hlen : ∀ i, (s i).length = 7 := fun i => ((hperm i).length_eq).trans (by decide)
  constructor
  · intro n k
    rw [drawSeq_window s hlen n 0, Nat.zero_add, List.count_reverse]
    rw [(hperm n).count_eq k]
    exact count_PIECE_NAMES k
  · intro i N k hN
    set m := (i + 6) / 7 with hm
    have h1 : i ≤ 7 * m := by omega
    have h2 : 7 * m ≤ i + 6 := by omega
    have hkmem : k ∈ ((drawSeq s [] 0 N).drop (7 * m)).take 7 := by
      rw [drawSeq_block s hlen m N (by omega), List.mem_reverse]
      exact ((hperm m).mem_iff).mpr (mem_PIECE_NAMES k)
    set L := drawSeq s [] 0 N with hL
    set W := L.drop i with hW
    set d := 7 * m - i with hd
    have hdd : L.drop (7 * m) = W.drop d := by
      rw [hW, List.drop_drop]
      congr 1
      omega
    have hdt := List.drop_take (d + 7) d W
    rw [show d + 7 - d = 7 from by omega] at hdt
    have hsub : ((W.drop d).take 7).Sublist (W.take 13) := by
      rw [← hdt]
      have h3 : W.take (d + 7) = (W.take 13).take (d + 7) := by
        rw [List.take_take]
        congr 1
        omega
      have s1 : ((W.take (d + 7)).drop d).Sublist (W.take (d + 7)) := List.drop_sublist d _
      have s2 : (W.take (d + 7)).Sublist (W.take 13) := by
        rw [h3]
        exact List.take_sublist _ _
      exact s1.trans s2
    rw [hdd] at hkmem
    exact hsub.subset hkmem

/-- Witness for C8 with the identity-permutation stream. -/
theorem bag_randomizer_witness :
    (∀ i : Nat, (s0 i).Perm PIECE_NAMES) ∧
    ((drawSeq s0 [] 0 7).drop 0).count Name.I = 1 :=
  ⟨fun _ => List.Perm.refl _,
   (bag_randomizer s0 (fun _ => List.Perm.refl _)).1 0 Name.I⟩

end Tetris
